import Mathlib

/-!
# Verification of the Pinecone_Loader pipeline

Shallow embedding of the repository's pure core: Python strings are
modelled as `List Char` (sequences of Unicode code points), paths as
their string form.  Fallible operations return `Except`.  External
effects (the OpenAI embedding call, the Pinecone upsert) are modelled
as oracle parameters; the value a step would send to the external
service is part of the function's result, so "the call never happens"
is expressed as the absence of that value.
-/

set_option maxRecDepth 10000

namespace PineconeLoader

/-! ## Python string primitives -/

/-- Python's whitespace test (`str.strip` / `str.isspace`) restricted to the
ASCII range, which is the only range the repository's inputs exercise. -/
def pyIsSpace (c : Char) : Bool :=
  c = ' ' || c = '\t' || c = '\n' || c = '\r' || c = '\x0b' || c = '\x0c'

/-- Python `str.strip()`: drop whitespace from both ends. -/
def pyStrip (t : List Char) : List Char :=
  ((t.dropWhile pyIsSpace).reverse.dropWhile pyIsSpace).reverse

/-- Worker for `pySplit`: scan the text, cutting at each leftmost
non-overlapping occurrence of `sep`; `acc` holds the current piece reversed.
The recursion is driven by a fuel counter so that the kernel can evaluate it;
`pySplit` supplies `t.length`, which is always enough (each step consumes at
least one character), so the fuel-exhausted branch is unreachable. -/
def pySplitGo (sep : List Char) : Nat → List Char → List Char → List (List Char)
  | fuel, acc, t =>
    match t with
    | [] => [acc.reverse]
    | c :: rest =>
      match fuel with
      | 0 => [acc.reverse ++ c :: rest]
      | fuel + 1 =>
        if 0 < sep.length ∧ sep.isPrefixOf (c :: rest) then
          acc.reverse :: pySplitGo sep fuel [] (rest.drop (sep.length - 1))
        else
          pySplitGo sep fuel (c :: acc) rest

/-- Python `str.split(sep)` with a non-empty separator: the pieces strictly
between the leftmost non-overlapping occurrences of `sep`. -/
def pySplit (sep : List Char) (t : List Char) : List (List Char) :=
  pySplitGo sep t.length [] t

/-- Python `sep.join(pieces)`. -/
def pyJoin (sep : List Char) : List (List Char) → List Char
  | [] => []
  | [p] => p
  | p :: q :: rest => p ++ sep ++ pyJoin sep (q :: rest)

/-! ## `pathlib.Path` fragments (POSIX flavour)

Only the parts of `pathlib` the repository touches: `Path.name`,
`Path.stem`, `Path.suffix` and `str(Path(p))`.  Modelled for POSIX
paths; the `'.'` components and empty components that `Path` drops are
filtered out exactly as CPython's parser does. -/

/-- Path components as `pathlib` parses a relative/absolute POSIX path:
split on `'/'`, dropping empty components and bare `'.'` components. -/
def pathParts (p : List Char) : List (List Char) :=
  (pySplit ['/'] p).filter (fun s => s ≠ [] && s ≠ ['.'])

/-- `Path(p).name`: the final component, `""` when there is none. -/
def pathName (p : List Char) : List Char :=
  (pathParts p).getLast?.getD []

/-- `str(Path(p))`: the normalised string form of the path. -/
def pathStr (p : List Char) : List Char :=
  match p with
  | '/' :: _ => '/' :: pyJoin ['/'] (pathParts p)
  | _ => if pathParts p = [] then ['.'] else pyJoin ['/'] (pathParts p)

/-- Index of the last `'.'` in a name, if any (CPython's `str.rfind('.')`). -/
def rfindDot (name : List Char) : Option Nat :=
  match name.reverse.findIdx? (· = '.') with
  | none => none
  | some j => some (name.length - 1 - j)

/-- `Path(p).stem`: the name without its last suffix.  CPython keeps the whole
name unless the last dot sits strictly inside it (`0 < i < len(name) - 1`). -/
def pathStem (p : List Char) : List Char :=
  let name := pathName p
  match rfindDot name with
  | some i => if 0 < i ∧ i < name.length - 1 then name.take i else name
  | none => name

/-- `Path(p).suffix`: the last extension including the dot, or `""`. -/
def pathSuffix (p : List Char) : List Char :=
  let name := pathName p
  match rfindDot name with
  | some i => if 0 < i ∧ i < name.length - 1 then name.drop i else []
  | none => []

/-! ## Decimal rendering of a natural number (Python `str(int)` for `int ≥ 0`) -/

/-- The ASCII digit for `n < 10`. -/
def digitChar (n : Nat) : Char := Char.ofNat (48 + n)

/-- Fuel-driven worker for `decDigits`; `decDigits` supplies fuel `n`, which
always suffices (`n / 10 < n` for `n ≥ 10`), so the fuel-exhausted branch is
unreachable — its value is chosen to agree anyway (`n ≤ 0` forces `n = 0`). -/
def decDigitsGo : Nat → Nat → List Char
  | fuel, n =>
    if n < 10 then [digitChar n]
    else
      match fuel with
      | 0 => [digitChar (n % 10)]
      | fuel + 1 => decDigitsGo fuel (n / 10) ++ [digitChar (n % 10)]

/-- Decimal digit string of `n`, most significant first — Python `str(n)`
for a non-negative `int`. -/
def decDigits (n : Nat) : List Char :=
  decDigitsGo n n

/-! ## `generate_vector_id` (pinecone_store.py)

`unicodedata.normalize('NFD', s)` is a library call; it is modelled at the
code-point level for the characters the development exercises: a character
with a canonical decomposition splits into base letter plus combining
marks, all others map to themselves.  The theorems about arbitrary inputs
do not depend on the decomposition table. -/

/-- U+0301 COMBINING ACUTE ACCENT. -/
def combiningAcute : Char := Char.ofNat 0x0301

/-- Code-point-level model of Unicode canonical decomposition, covering the
characters used here ('é' = U+00E9 decomposes to 'e' + U+0301); characters
without a listed decomposition are returned unchanged. -/
def nfdChar (c : Char) : List Char :=
  if c = 'é' then ['e', combiningAcute] else [c]

/-- `unicodedata.normalize('NFD', t)` under the `nfdChar` table. -/
def nfdStr (t : List Char) : List Char := (t.map nfdChar).flatten

/-- Python `str.isalnum` on the ASCII range, the only range that reaches it
in `generate_vector_id` (the input is filtered to code points `< 128`). -/
def pyIsAlnum (c : Char) : Bool := c.isAlphanum

/-- `generate_vector_id(file_path, chunk_index)`: stem of the path, NFD
normalisation, drop non-ASCII code points, map non-alphanumerics to `'_'`,
collapse runs of `'_'` (Python `'_'.join(filter(None, s.split('_')))`),
then append `_chunk_<index>`. -/
def generate_vector_id (file_path : List Char) (chunk_index : Nat) : List Char :=
  let base_name := pathStem file_path
  let normalized := nfdStr base_name
  let ascii_name := normalized.filter (fun c => c.toNat < 128)
  let replaced := ascii_name.map (fun c => if pyIsAlnum c then c else '_')
  let clean_name := pyJoin ['_'] ((pySplit ['_'] replaced).filter (· ≠ []))
  clean_name ++ "_chunk_".data ++ decDigits chunk_index

/-! ## `create_metadata` (pinecone_store.py) -/

/-- The metadata record attached to each stored vector.  The Python function
builds a dict with exactly these seven keys. -/
structure Metadata where
  text : List Char
  source : List Char
  file_path : List Char
  chunk_index : Nat
  chunk_length : Nat
  timestamp : List Char
  document_type : List Char
deriving DecidableEq

/-- `create_metadata(text_chunk, file_path, chunk_index)`.  The wall-clock
timestamp `datetime.now().isoformat()` is passed in as `now`. -/
def create_metadata (text_chunk : List Char) (file_path : List Char)
    (chunk_index : Nat) (now : List Char) : Metadata :=
  { text := text_chunk
    source := pathName file_path
    file_path := pathStr file_path
    chunk_index := chunk_index
    chunk_length := text_chunk.length
    timestamp := now
    document_type := "word_document".data }

/-! ## Character-class and decimal-digit lemmas -/

/-- The character class `[A-Za-z0-9_]` from the spec's ID property:
`Char.isAlphanum` is by definition exactly the ASCII ranges
`A`–`Z`, `a`–`z` and `0`–`9`. -/
def isIdChar (c : Char) : Bool :=
  c.isAlphanum || c = '_'

theorem isIdChar_of_pyIsAlnum {c : Char} (h : pyIsAlnum c = true) : isIdChar c = true := by
  simp only [pyIsAlnum] at h
  simp [isIdChar, h]

theorem isIdChar_digitChar {d : Nat} (hd : d < 10) : isIdChar (digitChar d) = true := by
  interval_cases d <;> decide

theorem digitChar_inj {d e : Nat} (hd : d < 10) (he : e < 10)
    (h : digitChar d = digitChar e) : d = e := by
  interval_cases d <;> interval_cases e <;> revert h <;> decide

theorem decDigitsGo_lt10 (fuel n : Nat) (h : n < 10) :
    decDigitsGo fuel n = [digitChar n] := by
  cases fuel <;> simp [decDigitsGo, h]

/-- The fuel parameter of `decDigitsGo` is irrelevant as long as it is at
least `n`. -/
theorem decDigitsGo_fuel : ∀ (f g n : Nat), n ≤ f → n ≤ g →
    decDigitsGo f n = decDigitsGo g n := by
  intro f
  induction f with
  | zero =>
    intro g n hf _
    have hn : n = 0 := by omega
    subst hn
    rw [decDigitsGo_lt10 0 0 (by omega), decDigitsGo_lt10 g 0 (by omega)]
  | succ f ih =>
    intro g n hf hg
    by_cases h : n < 10
    · rw [decDigitsGo_lt10 _ _ h, decDigitsGo_lt10 _ _ h]
    · have hdiv : n / 10 < n := Nat.div_lt_self (by omega) (by omega)
      obtain ⟨g', rfl⟩ : ∃ g', g = g' + 1 := ⟨g - 1, by omega⟩
      simp only [decDigitsGo, if_neg h]
      rw [ih g' (n / 10) (by omega) (by omega)]

/-- Unconditional unfolding equation for `decDigits`. -/
theorem decDigits_eq (n : Nat) : decDigits n =
    if n < 10 then [digitChar n] else decDigits (n / 10) ++ [digitChar (n % 10)] := by
  by_cases h : n < 10
  · rw [if_pos h]
    exact decDigitsGo_lt10 n n h
  · have hdiv : n / 10 < n := Nat.div_lt_self (by omega) (by omega)
    obtain ⟨m, rfl⟩ : ∃ m, n = m + 1 := ⟨n - 1, by omega⟩
    rw [if_neg h]
    simp only [decDigits, decDigitsGo, if_neg h]
    rw [decDigitsGo_fuel m ((m + 1) / 10) ((m + 1) / 10) (by omega) (by omega)]

theorem decDigits_ne_nil (n : Nat) : decDigits n ≠ [] := by
  rw [decDigits_eq n]
  split
  · exact List.cons_ne_nil _ _
  · exact fun h => absurd h (List.append_ne_nil_of_right_ne_nil _ (List.cons_ne_nil _ _))

theorem isIdChar_of_mem_decDigits : ∀ {n : Nat}, ∀ c ∈ decDigits n, isIdChar c = true := by
  intro n
  induction n using Nat.strong_induction_on with
  | _ n ih =>
    intro c hc
    rw [decDigits_eq n] at hc
    by_cases hn : n < 10
    · rw [if_pos hn] at hc
      rw [List.mem_singleton.mp hc]
      exact isIdChar_digitChar hn
    · rw [if_neg hn] at hc
      rcases List.mem_append.mp hc with h | h
      · exact ih (n / 10) (Nat.div_lt_self (by omega) (by omega)) c h
      · rw [List.mem_singleton.mp h]
        exact isIdChar_digitChar (Nat.mod_lt _ (by omega))

theorem decDigits_inj : ∀ {m n : Nat}, decDigits m = decDigits n → m = n := by
  intro m
  induction m using Nat.strong_induction_on with
  | _ m ih =>
    intro n h
    rw [decDigits_eq m, decDigits_eq n] at h
    by_cases hm : m < 10 <;> by_cases hn : n < 10
    · rw [if_pos hm, if_pos hn] at h
      exact digitChar_inj hm hn (List.cons_eq_cons.mp h).1
    · rw [if_pos hm, if_neg hn] at h
      have hlen := congrArg List.length h
      have h1 : 1 ≤ (decDigits (n / 10)).length :=
        List.length_pos.mpr (decDigits_ne_nil _)
      simp only [List.length_singleton, List.length_append] at hlen
      omega
    · rw [if_neg hm, if_pos hn] at h
      have hlen := congrArg List.length h
      have h1 : 1 ≤ (decDigits (m / 10)).length :=
        List.length_pos.mpr (decDigits_ne_nil _)
      simp only [List.length_singleton, List.length_append] at hlen
      omega
    · rw [if_neg hm, if_neg hn] at h
      have h' := congrArg List.reverse h
      simp only [List.reverse_append, List.reverse_singleton, List.singleton_append] at h'
      have hhead := (List.cons_eq_cons.mp h').1
      have htail := (List.cons_eq_cons.mp h').2
      have hmod : m % 10 = n % 10 :=
        digitChar_inj (Nat.mod_lt _ (by omega)) (Nat.mod_lt _ (by omega)) hhead
      have hdiv : m / 10 = n / 10 :=
        ih (m / 10) (Nat.div_lt_self (by omega) (by omega))
          (List.reverse_injective htail)
      omega

/-! ## Membership lemmas for `pyJoin` and `pySplit` -/

theorem mem_pyJoin (sep : List Char) :
    ∀ (ps : List (List Char)) (c : Char), c ∈ pyJoin sep ps →
      c ∈ sep ∨ ∃ p ∈ ps, c ∈ p := by
  intro ps
  induction ps with
  | nil => intro c hc; simp [pyJoin] at hc
  | cons p rest ih =>
    cases rest with
    | nil =>
      intro c hc
      exact Or.inr ⟨p, List.mem_cons_self _ _, hc⟩
    | cons q rest' =>
      intro c hc
      simp only [pyJoin, List.append_assoc, List.mem_append] at hc
      rcases hc with h | h | h
      · exact Or.inr ⟨p, List.mem_cons_self _ _, h⟩
      · exact Or.inl h
      · rcases ih c h with h' | ⟨r, hr, hcr⟩
        · exact Or.inl h'
        · exact Or.inr ⟨r, List.mem_cons_of_mem _ hr, hcr⟩

theorem mem_of_mem_pySplitGo (sep : List Char) :
    ∀ (fuel : Nat) (t acc p : List Char), p ∈ pySplitGo sep fuel acc t →
      ∀ c ∈ p, c ∈ acc ∨ c ∈ t := by
  intro fuel
  induction fuel with
  | zero =>
    intro t acc p hp c hc
    match t with
    | [] =>
      rw [List.mem_singleton.mp hp] at hc
      exact Or.inl (List.mem_reverse.mp hc)
    | a :: rest =>
      rw [List.mem_singleton.mp hp] at hc
      rcases List.mem_append.mp hc with h | h
      · exact Or.inl (List.mem_reverse.mp h)
      · exact Or.inr h
  | succ fuel ih =>
    intro t acc p hp c hc
    match t with
    | [] =>
      rw [List.mem_singleton.mp hp] at hc
      exact Or.inl (List.mem_reverse.mp hc)
    | a :: rest =>
      simp only [pySplitGo] at hp
      split at hp
      · rcases List.mem_cons.mp hp with h | h
        · rw [h] at hc
          exact Or.inl (List.mem_reverse.mp hc)
        · rcases ih _ [] p h c hc with h' | h'
          · exact absurd h' (List.not_mem_nil c)
          · exact Or.inr (List.mem_cons_of_mem _ (List.mem_of_mem_drop h'))
      · rcases ih _ (a :: acc) p hp c hc with h' | h'
        · rcases List.mem_cons.mp h' with h'' | h''
          · exact Or.inr (h'' ▸ List.mem_cons_self _ _)
          · exact Or.inl h''
        · exact Or.inr (List.mem_cons_of_mem _ h')

theorem mem_of_mem_pySplit {sep t p : List Char} (hp : p ∈ pySplit sep t) :
    ∀ c ∈ p, c ∈ t := by
  intro c hc
  rcases mem_of_mem_pySplitGo sep t.length t [] p hp c hc with h | h
  · exact absurd h (List.not_mem_nil c)
  · exact h

/-! ## Claims C1, C2, C7: properties of `generate_vector_id` -/

theorem isIdChar_of_mem_generate_vector_id (s : List Char) (i : Nat) :
    ∀ c ∈ generate_vector_id s i, isIdChar c = true := by
  intro c hc
  simp only [generate_vector_id, List.append_assoc, List.mem_append] at hc
  rcases hc with h | h | h
  · rcases mem_pyJoin _ _ _ h with h' | ⟨p, hp, hcp⟩
    · rw [List.mem_singleton.mp h']; decide
    · have hp' := List.mem_filter.mp hp
      have hmem := mem_of_mem_pySplit hp'.1 c hcp
      rcases List.mem_map.mp hmem with ⟨d, _, hd⟩
      by_cases hal : pyIsAlnum d = true
      · rw [← hd, if_pos hal]; exact isIdChar_of_pyIsAlnum hal
      · rw [← hd, if_neg hal]; decide
  · fin_cases h <;> decide
  · exact isIdChar_of_mem_decDigits c h

theorem generate_vector_id_index_injective (s : List Char) {i j : Nat}
    (h : generate_vector_id s i = generate_vector_id s j) : i = j := by
  simp only [generate_vector_id, List.append_assoc] at h
  exact decDigits_inj (List.append_cancel_left (List.append_cancel_left h))

/-- C1: every character of a vector ID is in `[A-Za-z0-9_]`; the derivation
is deterministic in `(sourceName, chunkIndex)` (it is a pure function);
distinct chunk indices of the same source give distinct IDs; and on
`"Résumé Final.docx"` the IDs for chunk 0 and chunk 1 are the pure-ASCII
strings `"Resume_Final_chunk_0"` and `"Resume_Final_chunk_1"`, sharing the
prefix `"Resume_Final"` and differing only in the trailing index suffix. -/
theorem generate_vector_id_spec :
    (∀ s i, ∀ c ∈ generate_vector_id s i, isIdChar c = true) ∧
    (∀ s i, generate_vector_id s i = generate_vector_id s i) ∧
    (∀ s i j, i ≠ j → generate_vector_id s i ≠ generate_vector_id s j) ∧
    generate_vector_id "Résumé Final.docx".data 0 =
      "Resume_Final".data ++ "_chunk_".data ++ decDigits 0 ∧
    generate_vector_id "Résumé Final.docx".data 1 =
      "Resume_Final".data ++ "_chunk_".data ++ decDigits 1 := by
  refine ⟨isIdChar_of_mem_generate_vector_id, fun s i => rfl, ?_, by decide, by decide⟩
  intro s i j hij h
  exact hij (generate_vector_id_index_injective s h)

theorem generate_vector_id_spec_witness :
    generate_vector_id "a.docx".data 0 ≠ generate_vector_id "a.docx".data 1 :=
  generate_vector_id_spec.2.2.1 "a.docx".data 0 1 (by decide)

/-- C2 counterexample: the ID map is not injective in the source name — the
two distinct documents `"x.docx"` and `"x.doc"` produce the same vector ID
for the same chunk index. -/
theorem generate_vector_id_source_collision :
    "x.docx".data ≠ "x.doc".data ∧
    generate_vector_id "x.docx".data 0 = generate_vector_id "x.doc".data 0 := by
  exact ⟨by decide, by decide⟩

/-- C2 amended: for a fixed source name the map from chunk index to vector ID
is injective (two chunks of one document never share an ID), but distinct
source names whose sanitised stems coincide can collide. -/
theorem generate_vector_id_injective_per_source :
    (∀ s i j, generate_vector_id s i = generate_vector_id s j → i = j) ∧
    (∃ s t : List Char, s ≠ t ∧ generate_vector_id s 0 = generate_vector_id t 0) := by
  refine ⟨fun s i j h => generate_vector_id_index_injective s h,
    "x.docx".data, "x.doc".data, by decide, by decide⟩

theorem generate_vector_id_injective_per_source_witness : (0 : Nat) = 0 :=
  generate_vector_id_injective_per_source.1 "a.docx".data 0 0 rfl

/-- C7 counterexample: on the empty source name `generate_vector_id` does not
fail — the Python function has no raise path at all — it returns the ID
`"_chunk_0"` for chunk 0. -/
theorem generate_vector_id_empty_source_returns :
    generate_vector_id [] 0 = "_chunk_0".data := by decide

/-- C7 amended: ID derivation has no error conditions at all; it is a total
function, and on the empty source name it returns `"_chunk_" ++ <index>`
rather than failing. -/
theorem generate_vector_id_total_on_empty :
    ∀ i : Nat, generate_vector_id [] i = "_chunk_".data ++ decDigits i := by
  intro i; rfl

/-! ## Claim C8: `create_metadata` is a fixed-shape projection -/

/-- C8: metadata derivation returns a record of exactly the seven fields
`{text, source, file_path, chunk_index, chunk_length, timestamp,
document_type}` (the `Metadata` structure), where `text` is the chunk text,
`source` the file's base name, `chunk_index` the given index, `chunk_length`
the character count of the given chunk text, `document_type` the constant
tag, and `timestamp` the capture-time string passed in (present, but not
value-reproducible across calls). -/
theorem create_metadata_projection :
    ∀ (tc fp : List Char) (i : Nat) (now : List Char),
      create_metadata tc fp i now =
        { text := tc
          source := pathName fp
          file_path := pathStr fp
          chunk_index := i
          chunk_length := tc.length
          timestamp := now
          document_type := "word_document".data } ∧
      (create_metadata tc fp i now).chunk_length = tc.length ∧
      (create_metadata tc fp i now).source = pathName fp ∧
      (create_metadata tc fp i now).timestamp = now :=
  fun _ _ _ _ => ⟨rfl, rfl, rfl, rfl⟩

/-! ## The text splitter (text_splitter.py)

`split_text` delegates to langchain's `RecursiveCharacterTextSplitter`
constructed with `chunk_size=CHUNK_SIZE`, `chunk_overlap=CHUNK_OVERLAP`,
`length_function=len` and the separator cascade below.  The library is
embedded as configured: `RecursiveCharacterTextSplitter` passes
`keep_separator=True`, so a found separator is re-attached to the front of
the fragment that follows it, and fragments are merged by plain
concatenation (the merge separator is the empty string).  `config.py` does
not define `CHUNK_SIZE`/`CHUNK_OVERLAP`, so the module's `ImportError`
fallback values 1000 and 200 are the ones in force. -/

def CHUNK_SIZE : Nat := 1000

def CHUNK_OVERLAP : Nat := 200

/-- The separator cascade passed to the splitter in text_splitter.py. -/
def SEPARATORS : List (List Char) :=
  ["\n\n".data, "\n".data, ". ".data, "! ".data, "? ".data, "; ".data,
   ", ".data, " ".data, []]

/-- Python's substring test `_s in text`. -/
def isSubstring (pat : List Char) : List Char → Bool
  | [] => pat.isPrefixOf []
  | c :: rest => pat.isPrefixOf (c :: rest) || isSubstring pat rest

/-- The separator-selection loop of `_split_text`: the first entry that is
`""` (paired with no remaining separators) or that occurs in `text` (paired
with the entries after it); `none` when no entry applies. -/
def chooseSepAux (text : List Char) : List (List Char) → Option (List Char × List (List Char))
  | [] => none
  | s :: rest =>
    if s = [] then some ([], [])
    else if isSubstring s text then some (s, rest)
    else chooseSepAux text rest

/-- Separator selection including the Python loop's initialisation
`separator = separators[-1]; new_separators = []` for the no-match case. -/
def chooseSep (text : List Char) (seps : List (List Char)) : List Char × List (List Char) :=
  (chooseSepAux text seps).getD (seps.getLastD [], [])

/-- `_split_text_with_regex(text, separator, keep_separator=True)`: split on
the separator, re-attach the separator to the front of each following piece,
and drop empty pieces; for the empty separator, the list of single
characters. -/
def splitWithSep (sep : List Char) (text : List Char) : List (List Char) :=
  if sep = [] then (text.map (fun c => [c])).filter (· ≠ [])
  else
    match pySplit sep text with
    | [] => []
    | p :: ps => (p :: ps.map (fun q => sep ++ q)).filter (· ≠ [])

/-- `_join_docs(docs, separator)` for the configured separator `""`:
concatenate and strip, yielding no chunk when the result is empty
(Python's `None`). -/
def joinDocs (cur : List (List Char)) : List (List Char) :=
  if pyStrip cur.flatten = [] then [] else [pyStrip cur.flatten]

/-- The overlap-window loop of `_merge_splits`: after a chunk is emitted,
fragments are dropped from the front of the window while the running total
exceeds the overlap, or while together with the incoming fragment (of length
`lend`) it would still exceed the chunk size.  Callers maintain
`total = sumLen cur`, under which the empty-window case has `total = 0` and
the loop condition is already false (Python never indexes an empty list). -/
def popWhile (cs ov lend : Nat) : List (List Char) → Nat → List (List Char) × Nat
  | [], total => ([], total)
  | d :: rest, total =>
    if total > ov ∨ (total + lend > cs ∧ total > 0) then
      popWhile cs ov lend rest (total - d.length)
    else
      (d :: rest, total)

/-- `_merge_splits(splits, separator)` as configured (merge separator `""`):
greedily pack fragments into chunks of total length at most `cs`, carrying
up to `ov` characters of trailing window as overlap into the next chunk;
`cur` is the running window and `total` its total length. -/
def mergeAux (cs ov : Nat) : List (List Char) → List (List Char) → Nat → List (List Char)
  | [], cur, _ => joinDocs cur
  | d :: ds, cur, total =>
    if total + d.length > cs ∧ cur ≠ [] then
      let p := popWhile cs ov d.length cur total
      joinDocs cur ++ mergeAux cs ov ds (p.1 ++ [d]) (p.2 + d.length)
    else
      mergeAux cs ov ds (cur ++ [d]) (total + d.length)

/-- `_merge_splits` entry point. -/
def mergeSplits (cs ov : Nat) (splits : List (List Char)) : List (List Char) :=
  mergeAux cs ov splits [] 0

/-- `if _good_splits: final_chunks.extend(self._merge_splits(_good_splits, _separator))`. -/
def flushGoods (cs ov : Nat) (goods : List (List Char)) : List (List Char) :=
  if goods = [] then [] else mergeSplits cs ov goods

/-- One step of `_split_text`'s loop over the fragments: a fragment shorter
than `cs` joins the run of good fragments; a longer one flushes the run and
is handled by `handle` (raw append or recursion, per the caller). -/
def splitStep (cs ov : Nat) (handle : List Char → List (List Char)) :
    List (List Char) × List (List Char) → List Char → List (List Char) × List (List Char) :=
  fun st s =>
    if s.length < cs then (st.1, st.2 ++ [s])
    else (st.1 ++ flushGoods cs ov st.2 ++ handle s, [])

/-- `RecursiveCharacterTextSplitter._split_text(text, separators)`: choose
the first applicable separator, split, merge runs of short fragments, and on
each fragment still of length ≥ `cs` either recurse with the remaining
separators or (when none remain) append it unchanged.  Fuel-driven for
kernel evaluation; `splitterSplitText` supplies `seps.length`, which always
suffices because each recursion drops at least one leading separator, so the
fuel-exhausted branch is unreachable. -/
def splitTextRec (cs ov : Nat) : Nat → List (List Char) → List Char → List (List Char)
  | 0, _, text => [text]
  | fuel + 1, seps, text =>
    let c := chooseSep text seps
    let splits := splitWithSep c.1 text
    let handle := fun s => if c.2 = [] then [s] else splitTextRec cs ov fuel c.2 s
    let fin := splits.foldl (splitStep cs ov handle) ([], [])
    fin.1 ++ flushGoods cs ov fin.2

/-- The library splitter as constructed in text_splitter.py. -/
def splitterSplitText (text : List Char) : List (List Char) :=
  splitTextRec CHUNK_SIZE CHUNK_OVERLAP SEPARATORS.length SEPARATORS text

/-- The two failure messages `split_text` can raise.  The second is raised
inside the `try` block and re-raised wrapped as
`"Error splitting text: ..."`. -/
inductive SplitErr where
  /-- `"Document text cannot be empty"` — the spec's `InvalidInput`. -/
  | emptyInput
  /-- `"No valid chunks created from document text"` — the spec's `EmptyResult`. -/
  | noChunks
deriving DecidableEq

/-- The cleaned chunk list of `split_text`:
`[chunk.strip() for chunk in chunks if chunk.strip()]`. -/
def cleanedChunks (document_text : List Char) : List (List Char) :=
  ((splitterSplitText document_text).map pyStrip).filter (· ≠ [])

/-- `split_text(document_text)` from text_splitter.py. -/
def split_text (document_text : List Char) : Except SplitErr (List (List Char)) :=
  if document_text = [] ∨ pyStrip document_text = [] then .error .emptyInput
  else if cleanedChunks document_text = [] then .error .noChunks
  else .ok (cleanedChunks document_text)

/-! ## Size-bound lemmas for the splitter (claim C3) -/

/-- Total character count of a list of fragments. -/
def sumLen (l : List (List Char)) : Nat := (l.map List.length).sum

theorem sumLen_nil : sumLen [] = 0 := rfl

theorem sumLen_cons (d : List Char) (l : List (List Char)) :
    sumLen (d :: l) = d.length + sumLen l := by
  simp [sumLen]

theorem sumLen_append (a b : List (List Char)) :
    sumLen (a ++ b) = sumLen a + sumLen b := by
  simp [sumLen]

theorem pyStrip_length_le (t : List Char) : (pyStrip t).length ≤ t.length := by
  unfold pyStrip
  rw [List.length_reverse]
  calc ((t.dropWhile pyIsSpace).reverse.dropWhile pyIsSpace).length
      ≤ (t.dropWhile pyIsSpace).reverse.length := (List.dropWhile_sublist _).length_le
    _ = (t.dropWhile pyIsSpace).length := List.length_reverse _
    _ ≤ t.length := (List.dropWhile_sublist _).length_le

theorem joinDocs_length (cur : List (List Char)) :
    ∀ doc ∈ joinDocs cur, doc.length ≤ sumLen cur := by
  intro doc hdoc
  have hlen : (pyStrip cur.flatten).length ≤ sumLen cur := by
    calc (pyStrip cur.flatten).length ≤ cur.flatten.length := pyStrip_length_le _
      _ = sumLen cur := by simp [sumLen]
  unfold joinDocs at hdoc
  split at hdoc
  · exact absurd hdoc (List.not_mem_nil doc)
  · rw [List.mem_singleton.mp hdoc]
    exact hlen

theorem popWhile_spec (cs ov lend : Nat) :
    ∀ (cur : List (List Char)) (total : Nat), total = sumLen cur →
      (popWhile cs ov lend cur total).2 = sumLen (popWhile cs ov lend cur total).1 ∧
      ((popWhile cs ov lend cur total).2 + lend ≤ cs ∨
        (popWhile cs ov lend cur total).2 = 0) := by
  intro cur
  induction cur with
  | nil =>
    intro total h
    have h0 : total = 0 := by simpa [sumLen] using h
    rw [popWhile]
    exact ⟨h, Or.inr h0⟩
  | cons d rest ih =>
    intro total h
    rw [popWhile]
    split
    · exact ih (total - d.length) (by rw [sumLen_cons] at h; omega)
    · rename_i hcond
      exact ⟨h, by omega⟩

theorem mergeAux_size (cs ov : Nat) :
    ∀ (l cur : List (List Char)) (total : Nat),
      (∀ s ∈ l, s.length < cs) → total = sumLen cur → total ≤ cs →
      ∀ doc ∈ mergeAux cs ov l cur total, doc.length ≤ cs := by
  intro l
  induction l with
  | nil =>
    intro cur total _ hsum hle doc hdoc
    rw [mergeAux] at hdoc
    have := joinDocs_length cur doc hdoc
    omega
  | cons d ds ih =>
    intro cur total hl hsum hle doc hdoc
    rw [mergeAux] at hdoc
    split at hdoc
    · rcases List.mem_append.mp hdoc with h | h
      · have := joinDocs_length cur doc h
        omega
      · obtain ⟨hp1, hp2⟩ := popWhile_spec cs ov d.length cur total hsum
        have hd : d.length < cs := hl d (List.mem_cons_self _ _)
        refine ih _ _ (fun s hs => hl s (List.mem_cons_of_mem _ hs)) ?_ ?_ doc h
        · rw [sumLen_append, sumLen_cons, sumLen_nil]; omega
        · omega
    · rename_i hcond
      have hd : d.length < cs := hl d (List.mem_cons_self _ _)
      refine ih _ _ (fun s hs => hl s (List.mem_cons_of_mem _ hs)) ?_ ?_ doc hdoc
      · rw [sumLen_append, sumLen_cons, sumLen_nil]; omega
      · by_cases hc : cur = []
        · subst hc
          rw [show sumLen ([] : List (List Char)) = 0 from rfl] at hsum
          omega
        · have : ¬(total + d.length > cs) := fun hgt => hcond ⟨hgt, hc⟩
          omega

theorem chooseSepAux_some_spec (text : List Char) :
    ∀ (seps : List (List Char)) (s : List Char) (rest : List (List Char)),
      chooseSepAux text seps = some (s, rest) →
      rest.length < seps.length ∧ (s = [] → rest = []) ∧
        ([] ∈ seps → s ≠ [] → [] ∈ rest) := by
  intro seps
  induction seps with
  | nil => intro s rest h; simp [chooseSepAux] at h
  | cons a as ih =>
    intro s rest h
    rw [chooseSepAux] at h
    split at h
    · rename_i ha
      rw [Option.some_inj, Prod.mk.injEq] at h
      refine ⟨by simp [← h.2], fun _ => h.2.symm, fun _ hs => absurd h.1.symm hs⟩
    · rename_i ha
      split at h
      · rw [Option.some_inj, Prod.mk.injEq] at h
        obtain ⟨rfl, rfl⟩ := h
        refine ⟨by simp, fun hs => absurd hs ha, fun hmem _ => ?_⟩
        rcases List.mem_cons.mp hmem with h' | h'
        · exact absurd h'.symm ha
        · exact h'
      · obtain ⟨h1, h2, h3⟩ := ih s rest h
        refine ⟨by simp only [List.length_cons]; omega, h2, fun hmem hs => ?_⟩
        rcases List.mem_cons.mp hmem with h' | h'
        · exact absurd h'.symm ha
        · exact h3 h' hs

theorem chooseSepAux_isSome (text : List Char) :
    ∀ (seps : List (List Char)), [] ∈ seps → (chooseSepAux text seps).isSome := by
  intro seps
  induction seps with
  | nil => intro h; exact absurd h (List.not_mem_nil _)
  | cons a as ih =>
    intro h
    rw [chooseSepAux]
    split
    · rfl
    · rename_i ha
      split

      · rfl
      · refine ih ?_
        rcases List.mem_cons.mp h with h' | h'
        · exact absurd h'.symm ha
        · exact h'

theorem chooseSep_spec (text : List Char) (seps : List (List Char)) (h0 : [] ∈ seps) :
    ((chooseSep text seps).1 = [] → (chooseSep text seps).2 = []) ∧
    ((chooseSep text seps).1 ≠ [] → [] ∈ (chooseSep text seps).2) ∧
    (chooseSep text seps).2.length < seps.length := by
  obtain ⟨⟨s, rest⟩, hsr⟩ := Option.isSome_iff_exists.mp (chooseSepAux_isSome text seps h0)
  obtain ⟨h1, h2, h3⟩ := chooseSepAux_some_spec text seps s rest hsr
  unfold chooseSep
  rw [hsr]
  exact ⟨h2, fun hne => h3 h0 hne, h1⟩

theorem length_of_mem_splitWithSep_nil (text : List Char) :
    ∀ s ∈ splitWithSep [] text, s.length = 1 := by
  intro s hs
  simp only [splitWithSep, if_pos rfl] at hs
  rcases List.mem_map.mp (List.mem_filter.mp hs).1 with ⟨c, _, rfl⟩
  rfl

theorem splitStep_foldl_size (cs ov : Nat) (handle : List Char → List (List Char)) :
    ∀ (splits : List (List Char)) (acc goods : List (List Char)),
      (∀ s ∈ splits, ¬ s.length < cs → ∀ chunk ∈ handle s, chunk.length ≤ cs) →
      (∀ chunk ∈ acc, chunk.length ≤ cs) →
      (∀ s ∈ goods, s.length < cs) →
      ∀ chunk ∈ (splits.foldl (splitStep cs ov handle) (acc, goods)).1 ++
          flushGoods cs ov (splits.foldl (splitStep cs ov handle) (acc, goods)).2,
        chunk.length ≤ cs := by
  intro splits
  induction splits with
  | nil =>
    intro acc goods _ hacc hgoods chunk hchunk
    simp only [List.foldl_nil] at hchunk
    rcases List.mem_append.mp hchunk with h | h
    · exact hacc chunk h
    · unfold flushGoods at h
      split at h
      · exact absurd h (List.not_mem_nil chunk)
      · exact mergeAux_size cs ov goods [] 0 hgoods rfl (Nat.zero_le cs) chunk h
  | cons s rest ih =>
    intro acc goods hh hacc hgoods chunk hchunk
    rw [List.foldl_cons] at hchunk
    by_cases hlen : s.length < cs
    · have hstep : splitStep cs ov handle (acc, goods) s = (acc, goods ++ [s]) := by
        simp [splitStep, hlen]
      rw [hstep] at hchunk
      refine ih acc (goods ++ [s]) (fun u hu => hh u (List.mem_cons_of_mem _ hu)) hacc
        ?_ chunk hchunk
      intro u hu
      rcases List.mem_append.mp hu with h | h
      · exact hgoods u h
      · rw [List.mem_singleton.mp h]; exact hlen
    · have hstep : splitStep cs ov handle (acc, goods) s =
          (acc ++ flushGoods cs ov goods ++ handle s, []) := by
        simp [splitStep, hlen]
      rw [hstep] at hchunk
      refine ih _ [] (fun u hu => hh u (List.mem_cons_of_mem _ hu)) ?_
        (by intro u hu; exact absurd hu (List.not_mem_nil u)) chunk hchunk
      intro u hu
      rcases List.mem_append.mp hu with h' | h'
      · rcases List.mem_append.mp h' with h'' | h''
        · exact hacc u h''
        · unfold flushGoods at h''
          split at h''
          · exact absurd h'' (List.not_mem_nil u)
          · exact mergeAux_size cs ov goods [] 0 hgoods rfl (Nat.zero_le cs) u h''
      · exact hh s (List.mem_cons_self _ _) hlen u h'

theorem splitTextRec_size (cs ov : Nat) (hcs : 2 ≤ cs) :
    ∀ (fuel : Nat) (seps : List (List Char)) (text : List Char),
      [] ∈ seps → seps.length ≤ fuel →
      ∀ chunk ∈ splitTextRec cs ov fuel seps text, chunk.length ≤ cs := by
  intro fuel
  induction fuel with
  | zero =>
    intro seps text h0 hlen
    have := List.length_pos.mpr (List.ne_nil_of_mem h0)
    omega
  | succ fuel ih =>
    intro seps text h0 hlen chunk hchunk
    simp only [splitTextRec] at hchunk
    obtain ⟨hc1, hc2, hc3⟩ := chooseSep_spec text seps h0
    by_cases hnil : (chooseSep text seps).1 = []
    · rw [hnil] at hchunk
      refine splitStep_foldl_size cs ov _ _ [] []
        (fun s hs hbig => absurd (length_of_mem_splitWithSep_nil text s hs) (by omega))
        (by intro u hu; exact absurd hu (List.not_mem_nil u))
        (by intro u hu; exact absurd hu (List.not_mem_nil u)) chunk hchunk
    · have hne : (chooseSep text seps).2 ≠ [] := List.ne_nil_of_mem (hc2 hnil)
      refine splitStep_foldl_size cs ov _ _ [] [] ?_
        (by intro u hu; exact absurd hu (List.not_mem_nil u))
        (by intro u hu; exact absurd hu (List.not_mem_nil u)) chunk hchunk
      intro s _ _ ch hch
      rw [if_neg hne] at hch
      exact ih _ s (hc2 hnil) (by omega) ch hch

/-- C3: whenever `split_text` succeeds, every returned chunk has length at
most `CHUNK_SIZE` (= 1000, with overlap 200 satisfying
`0 ≤ overlap < maxSize`). -/
theorem split_text_size_bound :
    ∀ (t : List Char) (chunks : List (List Char)),
      split_text t = .ok chunks → ∀ c ∈ chunks, c.length ≤ CHUNK_SIZE := by
  intro t chunks h c hc
  unfold split_text at h
  split at h
  · exact absurd h (by simp)
  · split at h
    · exact absurd h (by simp)
    · rw [Except.ok.injEq] at h
      subst h
      rcases List.mem_map.mp (List.mem_filter.mp hc).1 with ⟨c0, hc0, rfl⟩
      calc (pyStrip c0).length ≤ c0.length := pyStrip_length_le c0
        _ ≤ CHUNK_SIZE :=
          splitTextRec_size CHUNK_SIZE CHUNK_OVERLAP (by decide) SEPARATORS.length
            SEPARATORS t (by decide) (Nat.le_refl _) c0 hc0

theorem split_text_size_bound_witness : ("hello".data).length ≤ CHUNK_SIZE :=
  split_text_size_bound "hello".data ["hello".data] (by rfl) "hello".data
    (List.mem_singleton.mpr rfl)

/-! ## Claim C4: error kinds for empty and whitespace-only input -/

/-- C4 counterexample: the whitespace-only input `"   "` and the empty input
`""` are both rejected by the same first guard of `split_text`
(`if not document_text or not document_text.strip()`), raising the same
`ValueError("Document text cannot be empty")` — the spec's `InvalidInput` —
so the whitespace-only input does not produce a distinct `EmptyResult`
error. -/
theorem split_text_blank_same_error_as_empty :
    split_text "   ".data = .error SplitErr.emptyInput ∧
    split_text [] = .error SplitErr.emptyInput :=
  ⟨rfl, rfl⟩

/-- C4 amended: every input that is empty or trims to empty — including both
`""` and `"   "` — fails with the single `InvalidInput` error
("Document text cannot be empty"); the separate `EmptyResult` branch
("No valid chunks created from document text") exists in the code but is not
reached by these inputs. -/
theorem split_text_trimmed_empty_invalid :
    ∀ t : List Char, pyStrip t = [] → split_text t = .error SplitErr.emptyInput := by
  intro t h
  unfold split_text
  rw [if_pos (Or.inr h)]

theorem split_text_trimmed_empty_invalid_witness :
    split_text "  \t ".data = .error SplitErr.emptyInput :=
  split_text_trimmed_empty_invalid "  \t ".data (by rfl)

/-! ## Content lemmas for the splitter (claim C9) -/

theorem dropWhile_head_false {α : Type} {p : α → Bool} :
    ∀ (l : List α) {c : α} {cs : List α}, l.dropWhile p = c :: cs → p c = false := by
  intro l
  induction l with
  | nil => intro c cs h; simp at h
  | cons a as ih =>
    intro c cs h
    by_cases ha : p a
    · rw [List.dropWhile_cons_of_pos ha] at h
      exact ih h
    · rw [List.dropWhile_cons_of_neg ha] at h
      obtain ⟨rfl, -⟩ := List.cons_eq_cons.mp h
      simpa using ha

theorem pyStrip_eq_nil_iff (t : List Char) :
    pyStrip t = [] ↔ ∀ c ∈ t, pyIsSpace c = true := by
  unfold pyStrip
  rw [List.reverse_eq_nil_iff, List.dropWhile_eq_nil_iff]
  constructor
  · intro h c hc
    have hsplit : c ∈ t.takeWhile pyIsSpace ++ t.dropWhile pyIsSpace := by
      rw [List.takeWhile_append_dropWhile]
      exact hc
    rcases List.mem_append.mp hsplit with h' | h'
    · exact List.mem_takeWhile_imp h'
    · exact h c (List.mem_reverse.mpr h')
  · intro h c hc
    exact h c ((List.dropWhile_sublist _).subset (List.mem_reverse.mp hc))

theorem pyStrip_subset (t : List Char) : ∀ c ∈ pyStrip t, c ∈ t := by
  intro c hc
  unfold pyStrip at hc
  rw [List.mem_reverse] at hc
  have h1 : c ∈ (t.dropWhile pyIsSpace).reverse := (List.dropWhile_sublist _).subset hc
  rw [List.mem_reverse] at h1
  exact (List.dropWhile_sublist _).subset h1

theorem exists_nonspace_of_pyStrip_ne_nil {t : List Char} (h : pyStrip t ≠ []) :
    ∃ c ∈ pyStrip t, pyIsSpace c = false := by
  rw [ne_eq, pyStrip, List.reverse_eq_nil_iff] at h
  obtain ⟨c, cs, hcons⟩ := List.exists_cons_of_ne_nil h
  refine ⟨c, ?_, dropWhile_head_false _ hcons⟩
  rw [pyStrip, List.mem_reverse, hcons]
  exact List.mem_cons_self _ _

theorem pyStrip_ne_nil_iff (t : List Char) :
    pyStrip t ≠ [] ↔ ∃ c ∈ t, pyIsSpace c = false := by
  constructor
  · intro h
    obtain ⟨c, hc, hcf⟩ := exists_nonspace_of_pyStrip_ne_nil h
    exact ⟨c, pyStrip_subset t c hc, hcf⟩
  · rintro ⟨c, hc, hcf⟩ hnil
    have := (pyStrip_eq_nil_iff t).mp hnil c hc
    rw [this] at hcf
    exact absurd hcf (by decide)

theorem pyJoin_cons (sep : List Char) (a : List Char) {l : List (List Char)} (h : l ≠ []) :
    pyJoin sep (a :: l) = a ++ sep ++ pyJoin sep l := by
  cases l with
  | nil => exact absurd rfl h
  | cons b bs => rfl

theorem pySplitGo_ne_nil (sep : List Char) :
    ∀ (fuel : Nat) (acc t : List Char), pySplitGo sep fuel acc t ≠ [] := by
  intro fuel
  induction fuel with
  | zero =>
    intro acc t
    cases t <;> simp [pySplitGo]
  | succ fuel ih =>
    intro acc t
    cases t with
    | nil => simp [pySplitGo]
    | cons c rest =>
      simp only [pySplitGo]
      split
      · exact List.cons_ne_nil _ _
      · exact ih (c :: acc) rest

/-- The pieces produced by `pySplitGo`, rejoined with the separator,
reconstruct the accumulator and the remaining text: splitting loses no
content. -/
theorem pyJoin_pySplitGo (sep : List Char) :
    ∀ (fuel : Nat) (acc t : List Char), t.length ≤ fuel →
      pyJoin sep (pySplitGo sep fuel acc t) = acc.reverse ++ t := by
  intro fuel
  induction fuel with
  | zero =>
    intro acc t hlen
    have ht : t = [] := List.eq_nil_of_length_eq_zero (by omega)
    subst ht
    simp [pySplitGo, pyJoin]
  | succ fuel ih =>
    intro acc t hlen
    cases t with
    | nil => simp [pySplitGo, pyJoin]
    | cons c rest =>
      simp only [pySplitGo]
      split
      · rename_i hcond
        rw [pyJoin_cons sep _ (pySplitGo_ne_nil sep fuel [] _)]
        rw [ih [] (rest.drop (sep.length - 1))
          (by simp only [List.length_drop]; simp only [List.length_cons] at hlen; omega)]
        obtain ⟨suf, hsuf⟩ := List.isPrefixOf_iff_prefix.mp hcond.2
        have hdrop : rest.drop (sep.length - 1) = suf := by
          have h1 : (c :: rest).drop sep.length = suf := by
            rw [← hsuf, List.drop_left]
          obtain ⟨k, hk⟩ : ∃ k, sep.length = k + 1 := ⟨sep.length - 1, by omega⟩
          rw [hk, List.drop_succ_cons] at h1
          rw [hk]
          simpa using h1
        rw [hdrop, List.reverse_nil, List.nil_append, List.append_assoc, hsuf]
      · rw [ih (c :: acc) rest (by simp only [List.length_cons] at hlen; omega)]
        simp

theorem flatten_map_singleton (t : List Char) : (t.map (fun c => [c])).flatten = t := by
  induction t with
  | nil => rfl
  | cons c cs ih => simp [ih]

theorem flatten_attach_sep (sep : List Char) :
    ∀ (ps : List (List Char)) (p : List Char),
      (p :: ps.map (fun q => sep ++ q)).flatten = pyJoin sep (p :: ps) := by
  intro ps
  induction ps with
  | nil => intro p; simp [pyJoin]
  | cons q qs ih =>
    intro p
    rw [pyJoin_cons sep p (List.cons_ne_nil _ _), ← ih q]
    simp [List.append_assoc]

/-- The fragments produced by `splitWithSep` concatenate back to the input
text: the split step loses no characters. -/
theorem flatten_splitWithSep (sep text : List Char) :
    (splitWithSep sep text).flatten = text := by
  unfold splitWithSep
  split
  · rw [List.flatten_filter_ne_nil, flatten_map_singleton]
  · rcases hps : pySplit sep text with _ | ⟨p, ps⟩
    · exact absurd hps (pySplitGo_ne_nil sep text.length [] text)
    · rw [List.flatten_filter_ne_nil, flatten_attach_sep]
      have hjoin := pyJoin_pySplitGo sep text.length [] text (Nat.le_refl _)
      unfold pySplit at hps
      rw [hps] at hjoin
      simpa using hjoin

theorem exists_mem_splitWithSep (sep text : List Char) {c : Char} (hc : c ∈ text) :
    ∃ s ∈ splitWithSep sep text, c ∈ s := by
  rw [← flatten_splitWithSep sep text] at hc
  obtain ⟨l, hl, hcl⟩ := List.mem_flatten.mp hc
  exact ⟨l, hl, hcl⟩

theorem mem_flatten_append_left {c : Char} {A B : List (List Char)}
    (h : c ∈ A.flatten) : c ∈ (A ++ B).flatten := by
  rw [List.flatten_append]
  exact List.mem_append.mpr (Or.inl h)

theorem mem_flatten_append_right {c : Char} {A B : List (List Char)}
    (h : c ∈ B.flatten) : c ∈ (A ++ B).flatten := by
  rw [List.flatten_append]
  exact List.mem_append.mpr (Or.inr h)

theorem mem_flatten_singleton {c : Char} {e : List Char} (h : c ∈ e) :
    c ∈ ([e] : List (List Char)).flatten := by
  simpa using h

theorem mergeAux_nonspace (cs ov : Nat) :
    ∀ (l cur : List (List Char)) (total : Nat) (c : Char),
      pyIsSpace c = false → (c ∈ l.flatten ∨ c ∈ cur.flatten) →
      ∃ doc ∈ mergeAux cs ov l cur total, ∃ d ∈ doc, pyIsSpace d = false := by
  intro l
  induction l with
  | nil =>
    intro cur total c hcf hmem
    rcases hmem with h | h
    · simp at h
    · rw [mergeAux]
      have hne : pyStrip cur.flatten ≠ [] := (pyStrip_ne_nil_iff _).mpr ⟨c, h, hcf⟩
      obtain ⟨d, hd, hdf⟩ := exists_nonspace_of_pyStrip_ne_nil hne
      unfold joinDocs
      rw [if_neg hne]
      exact ⟨pyStrip cur.flatten, List.mem_singleton.mpr rfl, d, hd, hdf⟩
  | cons e ds ih =>
    intro cur total c hcf hmem
    rw [mergeAux]
    split
    · rcases hmem with h | h
      · rw [List.flatten_cons, List.mem_append] at h
        rcases h with h' | h'
        · obtain ⟨doc, hdoc, hns⟩ := ih _ _ c hcf
            (Or.inr (mem_flatten_append_right (mem_flatten_singleton h')))
          exact ⟨doc, List.mem_append.mpr (Or.inr hdoc), hns⟩
        · obtain ⟨doc, hdoc, hns⟩ := ih _ _ c hcf (Or.inl h')
          exact ⟨doc, List.mem_append.mpr (Or.inr hdoc), hns⟩
      · have hne : pyStrip cur.flatten ≠ [] := (pyStrip_ne_nil_iff _).mpr ⟨c, h, hcf⟩
        obtain ⟨d, hd, hdf⟩ := exists_nonspace_of_pyStrip_ne_nil hne
        refine ⟨pyStrip cur.flatten, List.mem_append.mpr (Or.inl ?_), d, hd, hdf⟩
        unfold joinDocs
        rw [if_neg hne]
        exact List.mem_singleton.mpr rfl
    · rcases hmem with h | h
      · rw [List.flatten_cons, List.mem_append] at h
        rcases h with h' | h'
        · exact ih _ _ c hcf (Or.inr (mem_flatten_append_right (mem_flatten_singleton h')))
        · exact ih _ _ c hcf (Or.inl h')
      · exact ih _ _ c hcf (Or.inr (mem_flatten_append_left h))

theorem flushGoods_nonspace (cs ov : Nat) (goods : List (List Char)) {c : Char}
    (hcf : pyIsSpace c = false) (h : c ∈ goods.flatten) :
    ∃ doc ∈ flushGoods cs ov goods, ∃ d ∈ doc, pyIsSpace d = false := by
  have hgoods : ¬ goods = [] := by
    rintro rfl
    simp at h
  unfold flushGoods mergeSplits
  rw [if_neg hgoods]
  exact mergeAux_nonspace cs ov goods [] 0 c hcf (Or.inl h)

theorem splitStep_foldl_nonspace (cs ov : Nat) (handle : List Char → List (List Char)) :
    ∀ (splits : List (List Char)) (acc goods : List (List Char)) (c : Char),
      pyIsSpace c = false →
      (∀ s ∈ splits, ¬ s.length < cs → (∃ d ∈ s, pyIsSpace d = false) →
        ∃ ch ∈ handle s, ∃ d ∈ ch, pyIsSpace d = false) →
      (c ∈ splits.flatten ∨ c ∈ goods.flatten ∨
        ∃ ch ∈ acc, ∃ d ∈ ch, pyIsSpace d = false) →
      ∃ chunk ∈ (splits.foldl (splitStep cs ov handle) (acc, goods)).1 ++
          flushGoods cs ov (splits.foldl (splitStep cs ov handle) (acc, goods)).2,
        ∃ d ∈ chunk, pyIsSpace d = false := by
  intro splits
  induction splits with
  | nil =>
    intro acc goods c hcf _ hmem
    simp only [List.foldl_nil]
    rcases hmem with h | h | h
    · simp at h
    · obtain ⟨doc, hdoc, hns⟩ := flushGoods_nonspace cs ov goods hcf h
      exact ⟨doc, List.mem_append.mpr (Or.inr hdoc), hns⟩
    · obtain ⟨ch, hch, hns⟩ := h
      exact ⟨ch, List.mem_append.mpr (Or.inl hch), hns⟩
  | cons s rest ih =>
    intro acc goods c hcf hh hmem
    rw [List.foldl_cons]
    by_cases hlen : s.length < cs
    · have hstep : splitStep cs ov handle (acc, goods) s = (acc, goods ++ [s]) := by
        simp [splitStep, hlen]
      rw [hstep]
      refine ih acc (goods ++ [s]) c hcf
        (fun u hu => hh u (List.mem_cons_of_mem _ hu)) ?_
      rcases hmem with h | h | h
      · rw [List.flatten_cons, List.mem_append] at h
        rcases h with h' | h'
        · exact Or.inr (Or.inl (mem_flatten_append_right (mem_flatten_singleton h')))
        · exact Or.inl h'
      · exact Or.inr (Or.inl (mem_flatten_append_left h))
      · exact Or.inr (Or.inr h)
    · have hstep : splitStep cs ov handle (acc, goods) s =
          (acc ++ flushGoods cs ov goods ++ handle s, []) := by
        simp [splitStep, hlen]
      rw [hstep]
      refine ih _ [] c hcf (fun u hu => hh u (List.mem_cons_of_mem _ hu)) ?_
      rcases hmem with h | h | h
      · rw [List.flatten_cons, List.mem_append] at h
        rcases h with h' | h'
        · obtain ⟨ch, hch, hns⟩ := hh s (List.mem_cons_self _ _) hlen ⟨c, h', hcf⟩
          exact Or.inr (Or.inr ⟨ch, List.mem_append.mpr (Or.inr hch), hns⟩)
        · exact Or.inl h'
      · obtain ⟨doc, hdoc, hns⟩ := flushGoods_nonspace cs ov goods hcf h
        exact Or.inr (Or.inr ⟨doc,
          List.mem_append.mpr (Or.inl (List.mem_append.mpr (Or.inr hdoc))), hns⟩)
      · obtain ⟨ch, hch, hns⟩ := h
        exact Or.inr (Or.inr ⟨ch,
          List.mem_append.mpr (Or.inl (List.mem_append.mpr (Or.inl hch))), hns⟩)

theorem splitTextRec_nonspace (cs ov : Nat) (hcs : 2 ≤ cs) :
    ∀ (fuel : Nat) (seps : List (List Char)) (text : List Char),
      [] ∈ seps → seps.length ≤ fuel →
      (∃ c ∈ text, pyIsSpace c = false) →
      ∃ chunk ∈ splitTextRec cs ov fuel seps text, ∃ d ∈ chunk, pyIsSpace d = false := by
  intro fuel
  induction fuel with
  | zero =>
    intro seps text h0 hlen
    have := List.length_pos.mpr (List.ne_nil_of_mem h0)
    omega
  | succ fuel ih =>
    intro seps text h0 hlen hns
    obtain ⟨c, hc, hcf⟩ := hns
    simp only [splitTextRec]
    obtain ⟨hc1, hc2, hc3⟩ := chooseSep_spec text seps h0
    have hmem : c ∈ (splitWithSep (chooseSep text seps).1 text).flatten := by
      rw [flatten_splitWithSep]
      exact hc
    by_cases hnil : (chooseSep text seps).1 = []
    · rw [hnil] at hmem ⊢
      exact splitStep_foldl_nonspace cs ov _ _ [] [] c hcf
        (fun s hs hbig _ => absurd (length_of_mem_splitWithSep_nil text s hs) (by omega))
        (Or.inl hmem)
    · have hne : (chooseSep text seps).2 ≠ [] := List.ne_nil_of_mem (hc2 hnil)
      refine splitStep_foldl_nonspace cs ov _ _ [] [] c hcf ?_ (Or.inl hmem)
      intro s _ _ hs
      obtain ⟨chunk, hchunk, hnsc⟩ := ih (chooseSep text seps).2 s (hc2 hnil) (by omega) hs
      rw [if_neg hne]
      exact ⟨chunk, hchunk, hnsc⟩

/-- C9: on any input containing at least one non-whitespace character,
`split_text` succeeds with a non-empty chunk list; in particular the
internal "No valid chunks created from document text" branch is unreachable
for such inputs, and the only failing inputs are those whose trimmed form is
empty. -/
theorem split_text_nonempty_of_nonspace :
    ∀ t : List Char, (∃ c ∈ t, pyIsSpace c = false) →
      ∃ chunks, split_text t = .ok chunks ∧ chunks ≠ [] := by
  intro t hns
  have hstrip : pyStrip t ≠ [] := (pyStrip_ne_nil_iff t).mpr hns
  have ht : ¬ t = [] := by
    rintro rfl
    exact hstrip rfl
  obtain ⟨chunk, hchunk, d, hd, hdf⟩ :=
    splitTextRec_nonspace CHUNK_SIZE CHUNK_OVERLAP (by decide) SEPARATORS.length
      SEPARATORS t (by decide) (Nat.le_refl _) hns
  have hclean : pyStrip chunk ∈ cleanedChunks t := by
    apply List.mem_filter.mpr
    refine ⟨List.mem_map_of_mem pyStrip hchunk, ?_⟩
    have : pyStrip chunk ≠ [] := (pyStrip_ne_nil_iff chunk).mpr ⟨d, hd, hdf⟩
    simpa using this
  have hcne : ¬ cleanedChunks t = [] := by
    intro h
    rw [h] at hclean
    exact List.not_mem_nil _ hclean
  refine ⟨cleanedChunks t, ?_, hcne⟩
  unfold split_text
  rw [if_neg (by push_neg; exact ⟨ht, hstrip⟩), if_neg hcne]

theorem split_text_nonempty_of_nonspace_witness :
    ∃ chunks, split_text "hi".data = .ok chunks ∧ chunks ≠ [] :=
  split_text_nonempty_of_nonspace "hi".data ⟨'h', by decide, by decide⟩

/-! ## `read_document` (document_reader.py)

The docx parsing is external (python-docx); `read_document`'s own logic is
a pure transformation of the list of paragraph texts the library yields,
preceded by a file-existence check.  Both external facts are parameters.
Note that python-docx renders a soft line break (`<w:br/>`) inside a
paragraph as a `"\n"` inside that paragraph's text. -/

/-- The failure modes of `read_document`. -/
inductive ReadErr where
  /-- `FileNotFoundError("Document not found: ...")` — the spec's `NotFound`. -/
  | notFound
  /-- `ValueError("No text content found in document: ...")`. -/
  | noText
deriving DecidableEq

/-- The text assembled from the paragraphs: strip each, keep the non-empty
ones, join with `"\n"`. -/
def extractedText (paragraphs : List (List Char)) : List Char :=
  pyJoin ['\n'] ((paragraphs.map pyStrip).filter (· ≠ []))

/-- `read_document(file_path)` from document_reader.py, over the paragraph
texts the docx library yields for the file. -/
def read_document (fileExists : Bool) (paragraphs : List (List Char)) :
    Except ReadErr (List Char) :=
  if fileExists = false then .error .notFound
  else if pyStrip (extractedText paragraphs) = [] then .error .noText
  else .ok (extractedText paragraphs)

/-! ## Newline-structure lemmas (claim C10) -/

/-- Scanner for two adjacent newline characters. -/
def hasDoubleNewline : List Char → Bool
  | a :: b :: t => (a == '\n' && b == '\n') || hasDoubleNewline (b :: t)
  | _ => false

theorem isSubstring_double_newline (t : List Char) :
    isSubstring ['\n', '\n'] t = hasDoubleNewline t := by
  induction t with
  | nil => rfl
  | cons a rest ih =>
    cases rest with
    | nil => simp [isSubstring, List.isPrefixOf, hasDoubleNewline]
    | cons b t2 =>
      rw [isSubstring, ih, hasDoubleNewline]
      by_cases ha : a = '\n' <;> by_cases hb : b = '\n' <;>
        simp [List.isPrefixOf, ha, hb, Bool.beq_comm]

theorem hasDoubleNewline_of_not_mem {p : List Char} (hp : '\n' ∉ p) :
    hasDoubleNewline p = false := by
  induction p with
  | nil => rfl
  | cons a rest ih =>
    cases rest with
    | nil => rfl
    | cons b t2 =>
      have ha : a ≠ '\n' := fun h => hp (h ▸ List.mem_cons_self _ _)
      rw [hasDoubleNewline, ih (fun h => hp (List.mem_cons_of_mem _ h))]
      simp [ha]

theorem hasDoubleNewline_append {p t : List Char} (hp : '\n' ∉ p)
    (ht : hasDoubleNewline t = false) : hasDoubleNewline (p ++ t) = false := by
  induction p with
  | nil => simpa using ht
  | cons a p' ih =>
    have ha : a ≠ '\n' := fun h => hp (h ▸ List.mem_cons_self _ _)
    have hp' : '\n' ∉ p' := fun h => hp (List.mem_cons_of_mem _ h)
    rw [List.cons_append]
    cases hpt : p' ++ t with
    | nil => rfl
    | cons b u =>
      rw [hasDoubleNewline, ← hpt, ih hp']
      simp [ha]

theorem pyJoin_cons_head (sep : List Char) (c : Char) (q' : List Char)
    (rest' : List (List Char)) :
    ∃ u, pyJoin sep ((c :: q') :: rest') = c :: u := by
  cases rest' with
  | nil => exact ⟨q', rfl⟩
  | cons r rs =>
    refine ⟨q' ++ (sep ++ pyJoin sep (r :: rs)), ?_⟩
    rw [pyJoin_cons sep _ (List.cons_ne_nil _ _)]
    simp

theorem hasDoubleNewline_join :
    ∀ (tc : List (List Char)), (∀ p ∈ tc, '\n' ∉ p ∧ p ≠ []) →
      hasDoubleNewline (pyJoin ['\n'] tc) = false := by
  intro tc
  induction tc with
  | nil => intro _; rfl
  | cons p rest ih =>
    intro h
    obtain ⟨hpn, hpne⟩ := h p (List.mem_cons_self _ _)
    cases rest with
    | nil => exact hasDoubleNewline_of_not_mem hpn
    | cons q rest' =>
      rw [pyJoin_cons _ _ (List.cons_ne_nil _ _), List.append_assoc]
      apply hasDoubleNewline_append hpn
      obtain ⟨hqn, hqne⟩ := h q (List.mem_cons_of_mem _ (List.mem_cons_self _ _))
      obtain ⟨c, q', rfl⟩ := List.exists_cons_of_ne_nil hqne
      obtain ⟨u, hu⟩ := pyJoin_cons_head ['\n'] c q' rest'
      have hc : c ≠ '\n' := fun hc => hqn (hc ▸ List.mem_cons_self _ _)
      have hJ : hasDoubleNewline (pyJoin ['\n'] ((c :: q') :: rest')) = false :=
        ih (fun p hp => h p (List.mem_cons_of_mem _ hp))
      rw [hu] at hJ
      rw [hu, List.singleton_append, hasDoubleNewline, hJ]
      simp [hc]

/-- The fuel parameter of `pySplitGo` is irrelevant as long as it is at
least the length of the remaining text. -/
theorem pySplitGo_fuel (sep : List Char) :
    ∀ (f g : Nat) (acc t : List Char), t.length ≤ f → t.length ≤ g →
      pySplitGo sep f acc t = pySplitGo sep g acc t := by
  intro f
  induction f with
  | zero =>
    intro g acc t hf _
    have ht : t = [] := List.eq_nil_of_length_eq_zero (by omega)
    subst ht
    cases g <;> rfl
  | succ f ih =>
    intro g acc t hf hg
    cases t with
    | nil => cases g <;> rfl
    | cons c rest =>
      obtain ⟨g', rfl⟩ : ∃ g', g = g' + 1 := by
        cases g
        · simp at hg
        · exact ⟨_, rfl⟩
      simp only [pySplitGo]
      split
      · rw [ih g' [] (rest.drop (sep.length - 1))
          (by simp only [List.length_drop]; simp only [List.length_cons] at hf; omega)
          (by simp only [List.length_drop]; simp only [List.length_cons] at hg; omega)]
      · rw [ih g' (c :: acc) rest
          (by simp only [List.length_cons] at hf; omega)
          (by simp only [List.length_cons] at hg; omega)]

/-- Splitting a newline-free text on `"\n"` yields a single piece. -/
theorem pySplitGo_no_newline :
    ∀ (p acc : List Char) (fuel : Nat), '\n' ∉ p → p.length ≤ fuel →
      pySplitGo ['\n'] fuel acc p = [acc.reverse ++ p] := by
  intro p
  induction p with
  | nil =>
    intro acc fuel _ _
    cases fuel <;> simp [pySplitGo]
  | cons c rest ih =>
    intro acc fuel hnl hlen
    have hc : c ≠ '\n' := fun h => hnl (h ▸ List.mem_cons_self _ _)
    obtain ⟨f, rfl⟩ : ∃ f, fuel = f + 1 := by
      cases fuel
      · simp at hlen
      · exact ⟨_, rfl⟩
    simp only [pySplitGo]
    have hng : ¬(0 < (['\n'] : List Char).length ∧
        (['\n'] : List Char).isPrefixOf (c :: rest) = true) := by
      intro hcond
      have h2 := hcond.2
      simp [List.isPrefixOf] at h2
      exact hc h2.symm
    rw [if_neg hng]
    rw [ih (c :: acc) f (fun h => hnl (List.mem_cons_of_mem _ h))
      (by simp only [List.length_cons] at hlen; omega)]
    simp

/-- Scanning a newline-free prefix `p` followed by `"\n"` cuts exactly at
that newline. -/
theorem pySplitGo_newline_cut :
    ∀ (p acc t : List Char) (fuel : Nat), '\n' ∉ p →
      (p ++ '\n' :: t).length ≤ fuel →
      pySplitGo ['\n'] fuel acc (p ++ '\n' :: t) =
        (acc.reverse ++ p) :: pySplitGo ['\n'] t.length [] t := by
  intro p
  induction p with
  | nil =>
    intro acc t fuel _ hlen
    obtain ⟨f, rfl⟩ : ∃ f, fuel = f + 1 := by
      cases fuel
      · simp at hlen
      · exact ⟨_, rfl⟩
    simp only [List.nil_append, pySplitGo]
    rw [if_pos ⟨by decide, by simp [List.isPrefixOf]⟩]
    simp only [List.length_singleton, Nat.sub_self, List.drop_zero]
    rw [pySplitGo_fuel ['\n'] f t.length [] t
      (by simp only [List.nil_append, List.length_cons] at hlen; omega) (Nat.le_refl _)]
    simp
  | cons c p' ih =>
    intro acc t fuel hnl hlen
    have hc : c ≠ '\n' := fun h => hnl (h ▸ List.mem_cons_self _ _)
    obtain ⟨f, rfl⟩ : ∃ f, fuel = f + 1 := by
      cases fuel
      · simp at hlen
      · exact ⟨_, rfl⟩
    rw [List.cons_append]
    simp only [pySplitGo]
    have hng : ¬(0 < (['\n'] : List Char).length ∧
        (['\n'] : List Char).isPrefixOf (c :: (p' ++ '\n' :: t)) = true) := by
      intro hcond
      have h2 := hcond.2
      simp [List.isPrefixOf] at h2
      exact hc h2.symm
    rw [if_neg hng]
    rw [ih (c :: acc) t f (fun h => hnl (List.mem_cons_of_mem _ h))
      (by simp only [List.cons_append, List.length_cons] at hlen; omega)]
    simp

/-- Splitting the `"\n"`-join of newline-free pieces recovers the pieces. -/
theorem pySplit_newline_join :
    ∀ (tc : List (List Char)), tc ≠ [] → (∀ p ∈ tc, '\n' ∉ p) →
      pySplit ['\n'] (pyJoin ['\n'] tc) = tc := by
  intro tc
  induction tc with
  | nil => intro h; exact absurd rfl h
  | cons p rest ih =>
    intro _ hnl
    have hp : '\n' ∉ p := hnl p (List.mem_cons_self _ _)
    cases rest with
    | nil =>
      show pySplitGo ['\n'] (pyJoin ['\n'] [p]).length [] (pyJoin ['\n'] [p]) = [p]
      rw [show pyJoin ['\n'] [p] = p from rfl]
      rw [pySplitGo_no_newline p [] p.length hp (Nat.le_refl _)]
      rfl
    | cons q rest' =>
      rw [pyJoin_cons _ _ (List.cons_ne_nil _ _), List.append_assoc]
      unfold pySplit
      rw [show (['\n'] ++ pyJoin ['\n'] (q :: rest') : List Char) =
        '\n' :: pyJoin ['\n'] (q :: rest') from rfl]
      rw [pySplitGo_newline_cut p [] (pyJoin ['\n'] (q :: rest')) _ hp (Nat.le_refl _)]
      rw [show pySplitGo ['\n'] (pyJoin ['\n'] (q :: rest')).length [] (pyJoin ['\n'] (q :: rest'))
        = pySplit ['\n'] (pyJoin ['\n'] (q :: rest')) from rfl]
      rw [ih (List.cons_ne_nil _ _) (fun u hu => hnl u (List.mem_cons_of_mem _ hu))]
      simp

theorem pyStrip_idem (t : List Char) : pyStrip (pyStrip t) = pyStrip t := by
  show List.rdropWhile pyIsSpace ((pyStrip t).dropWhile pyIsSpace) = pyStrip t
  have hstrip : pyStrip t = List.rdropWhile pyIsSpace (t.dropWhile pyIsSpace) := rfl
  have hdw : (pyStrip t).dropWhile pyIsSpace = pyStrip t := by
    cases hs : pyStrip t with
    | nil => rfl
    | cons c s' =>
      obtain ⟨u, hu⟩ :=
        (List.rdropWhile_prefix (p := pyIsSpace) (l := t.dropWhile pyIsSpace))
      rw [hstrip] at hs
      rw [hs, List.cons_append] at hu
      have hc : pyIsSpace c = false := dropWhile_head_false t hu.symm
      rw [List.dropWhile_cons_of_neg (by simp [hc])]
  rw [hdw, hstrip, List.rdropWhile_idempotent]

/-! ## Claim C10: shape of the text returned by `read_document` -/

/-- C10 counterexample: a paragraph whose text contains interior newlines
(as python-docx produces for soft line breaks) survives per-paragraph
stripping unchanged, so `read_document` can return text that contains two
consecutive newline characters — the chunker's `"\n\n"` separator does
match it — and whose first line carries trailing whitespace. -/
theorem read_document_interior_newlines_counterexample :
    read_document true ["a \n\n b".data] = .ok "a \n\n b".data ∧
    hasDoubleNewline "a \n\n b".data = true ∧
    isSubstring "\n\n".data "a \n\n b".data = true ∧
    (pySplit ['\n'] "a \n\n b".data).head? = some "a ".data ∧
    pyStrip "a ".data ≠ "a ".data :=
  ⟨rfl, by decide, by decide, by decide, by decide⟩

/-- C10 amended: provided no paragraph text contains a newline character
(true whenever the document has no soft line breaks), every string returned
by `read_document` is non-empty after trimming, every line of it is
individually trimmed (each line is its own `strip`), and it contains no two
consecutive newline characters, so the chunker's highest-priority separator
`"\n\n"` never occurs in it. -/
theorem read_document_lines_spec :
    ∀ (ex : Bool) (paras : List (List Char)) (r : List Char),
      (∀ p ∈ paras, '\n' ∉ p) →
      read_document ex paras = .ok r →
      pyStrip r ≠ [] ∧
      (∀ line ∈ pySplit ['\n'] r, pyStrip line = line) ∧
      hasDoubleNewline r = false ∧
      isSubstring "\n\n".data r = false := by
  intro ex paras r hnl h
  unfold read_document at h
  split at h
  · exact absurd h (by simp)
  · split at h
    · exact absurd h (by simp)
    · rename_i hne
      rw [Except.ok.injEq] at h
      subst h
      have htc : ∀ q ∈ (paras.map pyStrip).filter (· ≠ []),
          '\n' ∉ q ∧ q ≠ [] ∧ pyStrip q = q := by
        intro q hq
        obtain ⟨hq1, hq2⟩ := List.mem_filter.mp hq
        obtain ⟨p0, hp0, rfl⟩ := List.mem_map.mp hq1
        refine ⟨fun h => hnl p0 hp0 (pyStrip_subset p0 '\n' h), by simpa using hq2,
          pyStrip_idem p0⟩
      have htcne : (paras.map pyStrip).filter (· ≠ []) ≠ [] := by
        intro h0
        apply hne
        unfold extractedText
        rw [h0]
        rfl
      refine ⟨hne, ?_, ?_, ?_⟩
      · intro line hline
        unfold extractedText at hline
        rw [pySplit_newline_join _ htcne (fun p hp => (htc p hp).1)] at hline
        exact (htc line hline).2.2
      · exact hasDoubleNewline_join _ (fun p hp => ⟨(htc p hp).1, (htc p hp).2.1⟩)
      · rw [show ("\n\n".data : List Char) = ['\n', '\n'] from rfl,
          isSubstring_double_newline]
        exact hasDoubleNewline_join _ (fun p hp => ⟨(htc p hp).1, (htc p hp).2.1⟩)

theorem read_document_lines_spec_witness :
    pyStrip "hello\nworld".data ≠ [] ∧ pyStrip "hello".data = "hello".data ∧
    hasDoubleNewline "hello\nworld".data = false :=
  have h := read_document_lines_spec true ["hello".data, " world ".data]
    "hello\nworld".data (by decide) (by rfl)
  ⟨h.1, h.2.1 "hello".data (by decide), h.2.2.1⟩

/-! ## `generate_embeddings` (embedding_generator.py) and
`store_embeddings` (pinecone_store.py)

The OpenAI embedding request and the Pinecone upsert are external
services.  The embedder is an oracle parameter; the batch
`store_embeddings` would pass to `index.upsert` is its success value, so
"the upsert never happens" is exactly "the result is an error".  The
embedding vectors themselves are opaque (`α`). -/

/-- Failure modes of `generate_embeddings`. -/
inductive EmbedErr where
  /-- `ValueError("Text chunks list cannot be empty")`. -/
  | emptyChunks
  /-- A provider-reported fault (`OpenAIError`, re-raised wrapped). -/
  | providerFault
deriving DecidableEq

/-- `generate_embeddings(text_chunks)` over an external embedding oracle. -/
def generate_embeddings {α : Type} (embed : List (List Char) → Except Unit (List α))
    (text_chunks : List (List Char)) : Except EmbedErr (List α) :=
  if text_chunks = [] then .error .emptyChunks
  else
    match embed text_chunks with
    | .error _ => .error .providerFault
    | .ok embs => .ok embs

/-- Failure modes of `store_embeddings` raised before the upsert. -/
inductive StoreErr where
  /-- `ValueError("Embeddings list cannot be empty")`. -/
  | emptyEmbeddings
  /-- `ValueError("Text chunks list cannot be empty")`. -/
  | emptyChunks
  /-- `ValueError("Embeddings count (...) must match text chunks count (...)")`. -/
  | countMismatch
deriving DecidableEq

/-- The `(id, values, metadata)` tuples prepared for upsert
(`for i, (embedding, text_chunk) in enumerate(zip(embeddings, text_chunks))`). -/
def prepareVectors {α : Type} (embeddings : List α) (text_chunks : List (List Char))
    (file_path now : List Char) : List (List Char × α × Metadata) :=
  (embeddings.zip text_chunks).enum.map
    (fun p => (generate_vector_id file_path p.1, p.2.1,
      create_metadata p.2.2 file_path p.1 now))

/-- `store_embeddings(embeddings, text_chunks, file_path)`: validate, then
build the batch that is handed to `index.upsert` in one call. -/
def store_embeddings {α : Type} (embeddings : List α) (text_chunks : List (List Char))
    (file_path now : List Char) : Except StoreErr (List (List Char × α × Metadata)) :=
  if embeddings.isEmpty then .error .emptyEmbeddings
  else if text_chunks.isEmpty then .error .emptyChunks
  else if embeddings.length ≠ text_chunks.length then .error .countMismatch
  else .ok (prepareVectors embeddings text_chunks file_path now)

/-! ## The pipeline orchestrator (run.py) -/

/-- A step failure surfaced by `process_document` (which logs it and
returns `False`, making `main` exit 1). -/
inductive PipeErr where
  | readErr (e : ReadErr)
  | splitErr (e : SplitErr)
  | embedErr (e : EmbedErr)
  | storeErr (e : StoreErr)
deriving DecidableEq

/-- Classification under the spec's §7 taxonomy: `ProviderError` covers
embedding/store backend failures *including count mismatches* (§7) and
empty-input rejection at the provider boundary (§6). -/
def PipeErr.isProviderError : PipeErr → Bool
  | .embedErr _ => true
  | .storeErr _ => true
  | _ => false

/-- `process_document(file_path)`: Read → Split → Embed → Store, aborting
at the first failing step.  The success value is the batch upserted by the
Store step; an error means the upsert was never invoked. -/
def process_document {α : Type} (fileExists : Bool) (paragraphs : List (List Char))
    (embed : List (List Char) → Except Unit (List α)) (file_path now : List Char) :
    Except PipeErr (List (List Char × α × Metadata)) :=
  match read_document fileExists paragraphs with
  | .error e => .error (.readErr e)
  | .ok document_text =>
    match split_text document_text with
    | .error e => .error (.splitErr e)
    | .ok text_chunks =>
      match generate_embeddings embed text_chunks with
      | .error e => .error (.embedErr e)
      | .ok embeddings =>
        match store_embeddings embeddings text_chunks file_path now with
        | .error e => .error (.storeErr e)
        | .ok batch => .ok batch

/-- The batch handed to the vector store, if any: `none` means the store
was left untouched. -/
def upsertedBatch {α : Type} (r : Except PipeErr (List (List Char × α × Metadata))) :
    Option (List (List Char × α × Metadata)) :=
  match r with
  | .ok b => some b
  | .error _ => none

/-- C5: whenever the embedding step would hand back a number of vectors
different from the number of chunks submitted, the store step never
executes — no batch is ever handed to the vector store, leaving it
unchanged — and the run fails with an error classified as a
`ProviderError` (the spec's taxonomy covers count mismatches under
`ProviderError`). -/
theorem process_document_count_mismatch {α : Type} :
    ∀ (ex : Bool) (paras : List (List Char))
      (embed : List (List Char) → Except Unit (List α)) (fp now : List Char)
      (dt : List Char) (chunks : List (List Char)) (embs : List α),
      read_document ex paras = .ok dt →
      split_text dt = .ok chunks →
      embed chunks = .ok embs →
      embs.length ≠ chunks.length →
      upsertedBatch (process_document ex paras embed fp now) = none ∧
      ∃ e, process_document ex paras embed fp now = .error e ∧
        e.isProviderError = true := by
  intro ex paras embed fp now dt chunks embs hread hsplit hembed hmm
  unfold process_document
  simp only [hread, hsplit]
  unfold generate_embeddings
  by_cases hc : chunks = []
  · simp only [if_pos hc]
    exact ⟨rfl, .embedErr .emptyChunks, rfl, rfl⟩
  · simp only [if_neg hc, hembed]
    unfold store_embeddings
    by_cases he : embs.isEmpty
    · simp only [if_pos he]
      exact ⟨rfl, .storeErr .emptyEmbeddings, rfl, rfl⟩
    · have hcne : chunks.isEmpty = false := by
        cases chunks
        · exact absurd rfl hc
        · rfl
      simp only [if_neg he, hcne, Bool.false_eq_true, if_false, if_pos hmm]
      exact ⟨rfl, .storeErr .countMismatch, rfl, rfl⟩

theorem process_document_count_mismatch_witness :
    upsertedBatch (process_document true ["hello".data]
      (fun _ => .ok [(0 : Nat), 1]) "d.docx".data []) = none ∧
    ∃ e, process_document true ["hello".data]
      (fun _ => .ok [(0 : Nat), 1]) "d.docx".data [] = .error e ∧
      e.isProviderError = true :=
  process_document_count_mismatch true ["hello".data] (fun _ => .ok [0, 1])
    "d.docx".data [] "hello".data ["hello".data] [0, 1]
    (by rfl) (by rfl) (by rfl) (by decide)

/-! ## The CLI entry point (run.py) -/

/-- Python `str.lower()` (only ASCII letters occur in the suffixes used
here). -/
def pyLower (t : List Char) : List Char := t.map Char.toLower

/-- Failure modes of `validate_file_path`. -/
inductive ValidateErr where
  /-- `FileNotFoundError("File not found: ...")`. -/
  | notFound
  /-- `ValueError("File must be a Word document (.docx or .doc) ...")`. -/
  | badSuffix
deriving DecidableEq

/-- `validate_file_path(file_path)` from run.py; file existence is an
external fact passed as an oracle. -/
def validate_file_path (fileExists : List Char → Bool) (file_path : List Char) :
    Except ValidateErr (List Char) :=
  if fileExists file_path = false then .error .notFound
  else if ¬(pyLower (pathSuffix file_path) = ".docx".data ∨
      pyLower (pathSuffix file_path) = ".doc".data) then .error .badSuffix
  else .ok file_path

/-- Model of argparse for run.py's parser (a single required positional
`file_path`): `-h`/`--help` prints help and exits with `SystemExit(0)`;
a wrong number of positionals or an option-like argument is a usage error,
`SystemExit(2)`.  `SystemExit` is not an `Exception`, so `main`'s handlers
do not catch it and the process exits with that code.  The `--` separator
convention of argparse is not modelled. -/
def parse_arguments (argv : List (List Char)) : Except Nat (List Char) :=
  if "-h".data ∈ argv ∨ "--help".data ∈ argv then .error 0
  else
    match argv with
    | [f] => if f.head? = some '-' then .error 2 else .ok f
    | _ => .error 2

/-- The run-time outcome of `process_document(validated_path)`, including an
external interrupt: `KeyboardInterrupt` is not an `Exception`, so it
escapes `process_document`'s handler and reaches `main`'s
`except KeyboardInterrupt`. -/
inductive ProcOutcome where
  | completed (success : Bool)
  | interrupted
deriving DecidableEq

/-- `main()` from run.py as an exit-code function: argparse exits pass
through (0 for help, 2 for usage errors); `FileNotFoundError`/`ValueError`
from validation exit 1; pipeline failure exits 1; interrupt exits 1;
success exits 0. -/
def mainExit (argv : List (List Char)) (fileExists : List Char → Bool)
    (outcome : List Char → ProcOutcome) : Nat :=
  match parse_arguments argv with
  | .error code => code
  | .ok fp =>
    match validate_file_path fileExists fp with
    | .error _ => 1
    | .ok vp =>
      match outcome vp with
      | .interrupted => 1
      | .completed true => 0
      | .completed false => 1

/-- C6 counterexample: with no command-line arguments at all, argparse's
missing-argument usage error terminates the process via uncaught
`SystemExit(2)` — exit code 2, not the claimed 1. -/
theorem mainExit_bad_args_exits_two :
    mainExit [] (fun _ => false) (fun _ => .completed false) = 2 ∧ (2 : Nat) ≠ 1 :=
  ⟨rfl, by decide⟩

/-- C6 amended: the process exits 0 iff the whole pipeline succeeds (or
help was requested, which argparse also ends with exit 0); bad
command-line arguments exit 2 (argparse's usage-error convention, since
`SystemExit` is not caught); and every other failure — missing file,
non-Word extension, any pipeline step failure, and user interrupt —
exits 1. -/
theorem mainExit_spec :
    ∀ (argv : List (List Char)) (fileExists : List Char → Bool)
      (outcome : List Char → ProcOutcome),
      (mainExit argv fileExists outcome = 0 ↔
        ((∃ fp vp, parse_arguments argv = .ok fp ∧
            validate_file_path fileExists fp = .ok vp ∧
            outcome vp = .completed true) ∨
          parse_arguments argv = .error 0)) ∧
      (parse_arguments argv = .error 2 → mainExit argv fileExists outcome = 2) ∧
      (∀ fp, parse_arguments argv = .ok fp →
        (∀ vp, validate_file_path fileExists fp = .ok vp →
          outcome vp ≠ .completed true) →
        mainExit argv fileExists outcome = 1) := by
  intro argv fileExists outcome
  refine ⟨?_, ?_, ?_⟩
  · unfold mainExit
    cases hp : parse_arguments argv with
    | error code =>
      dsimp only
      constructor
      · intro h
        exact Or.inr (by rw [h])
      · intro h
        rcases h with ⟨fp, vp, hfp, -, -⟩ | h
        · exact absurd hfp (by simp)
        · rw [Except.error.injEq] at h
          exact h
    | ok fp =>
      dsimp only
      cases hv : validate_file_path fileExists fp with
      | error e =>
        dsimp only
        constructor
        · intro h
          exact absurd h (by decide)
        · intro h
          rcases h with ⟨fp', vp, hfp', hvp', -⟩ | h
          · rw [Except.ok.injEq] at hfp'
            subst hfp'
            rw [hv] at hvp'
            exact absurd hvp' (by simp)
          · exact absurd h (by simp)
      | ok vp =>
        dsimp only
        cases ho : outcome vp with
        | interrupted =>
          dsimp only
          constructor
          · intro h
            exact absurd h (by decide)
          · intro h
            rcases h with ⟨fp', vp', hfp', hvp', ho'⟩ | h
            · rw [Except.ok.injEq] at hfp'
              subst hfp'
              rw [hv, Except.ok.injEq] at hvp'
              subst hvp'
              rw [ho] at ho'
              exact absurd ho' (by simp)
            · exact absurd h (by simp)
        | completed success =>
          cases success with
          | true =>
            dsimp only
            exact ⟨fun _ => Or.inl ⟨fp, vp, rfl, hv, ho⟩, fun _ => rfl⟩
          | false =>
            dsimp only
            constructor
            · intro h
              exact absurd h (by decide)
            · intro h
              rcases h with ⟨fp', vp', hfp', hvp', ho'⟩ | h
              · rw [Except.ok.injEq] at hfp'
                subst hfp'
                rw [hv, Except.ok.injEq] at hvp'
                subst hvp'
                rw [ho] at ho'
                exact absurd ho' (by simp)
              · exact absurd h (by simp)
  · intro h
    unfold mainExit
    rw [h]
  · intro fp hfp hfail
    unfold mainExit
    rw [hfp]
    dsimp only
    cases hv : validate_file_path fileExists fp with
    | error e => rfl
    | ok vp =>
      dsimp only
      cases ho : outcome vp with
      | interrupted => rfl
      | completed success =>
        cases success with
        | true => exact absurd ho (hfail vp hv)
        | false => rfl

theorem mainExit_spec_witness :
    mainExit ["a.docx".data, "b.docx".data] (fun _ => true)
      (fun _ => .completed true) = 2 :=
  (mainExit_spec ["a.docx".data, "b.docx".data] (fun _ => true)
    (fun _ => .completed true)).2.1 (by rfl)

end PineconeLoader
